import Mathlib

/-!
Verification of the CSV filtering and key-based reconciliation script
(`compareCSV.py`).  Records, the keyed index, the predicate filters and the
reconciler are embedded as executable Lean functions; file reading and
writing (the Record Source / Record Sink collaborators) stay outside the
model: each operation takes the already-read row sequences, and the file
writes it would perform are returned as explicit `FileWrite` values.
-/

namespace CSVScript

/-- One CSV row as an ordered field-name/value mapping (the Python
`Dict[str, str]` produced by `csv.DictReader`; keys are unique). -/
abbrev Record := List (String × String)

/-- A composite key: the tuple of key-column values. -/
abbrev Key := List String

/-- The keyed index, Python `Dict[Tuple[str, ...], Dict[str, str]]`. -/
abbrev Index := List (Key × Record)

/-- Field lookup on a record, Python `r.get(c)` (absent field gives `None`). -/
def rget : Record → String → Option String
  | [], _ => none
  | (k, v) :: rest, c => if k = c then some v else rget rest c

/-- Field lookup with default, Python `r.get(c, d)`. -/
def rgetD (r : Record) (c d : String) : String := (rget r c).getD d

/-- Field names of a record, Python `row.keys()`. -/
def hdr (r : Record) : List String := r.map Prod.fst

/-- Errors raised by the script: each is a `ValueError` naming the offending
column (the spec's `SchemaError`).  The compare-column check distinguishes
whether the column is missing from file1's or file2's header. -/
inductive CsvError where
  | columnNotFound (col : String)
  | keyColumnNotFound (col : String)
  | columnNotFoundFile1 (col : String)
  | columnNotFoundFile2 (col : String)
  deriving DecidableEq, Repr

/-- Composite key of a record, Python
`tuple(r.get(col, "") for col in key_columns)` (line 191). -/
def rowKey (r : Record) (key_columns : List String) : Key :=
  key_columns.map (fun c => rgetD r c "")

/-- Python dict assignment `index[key] = r` (line 192): overwrite in place
when the key is already present (keeping its position), else append. -/
def insertIdx : Index → Key → Record → Index
  | [], k, r => [(k, r)]
  | (k', r') :: rest, k, r =>
    if k' = k then (k, r) :: rest else (k', r') :: insertIdx rest k r

/-- Index lookup, Python `index[key]`. -/
def lookupIdx : Index → Key → Option Record
  | [], _ => none
  | (k', r) :: rest, k => if k' = k then some r else lookupIdx rest k

/-- The insertion loop of `index_by_keys` (lines 189-193). -/
def buildLoop (rows : List Record) (key_columns : List String) : Index :=
  rows.foldl (fun idx r => insertIdx idx (rowKey r key_columns) r) []

/-- Model of `index_by_keys` (lines 177-193): empty input gives the empty
mapping; otherwise each key column is validated against the first row (the
first missing one raises), then the dict is built row by row. -/
def index_by_keys (rows : List Record) (key_columns : List String) :
    Except CsvError Index :=
  match rows with
  | [] => .ok []
  | first :: _ =>
    match key_columns.find? (fun c => !decide (c ∈ hdr first)) with
    | some c => .error (.keyColumnNotFound c)
    | none => .ok (buildLoop rows key_columns)

/-- Python `<=` comparison on equal-length tuples of strings: lexicographic
over the elements, strings compared by code point.  Used to model `sorted`
over composite keys (lines 245, 260, 270). -/
def keyLeB : Key → Key → Bool
  | [], _ => true
  | _ :: _, [] => false
  | a :: as, b :: bs => if a < b then true else if a = b then keyLeB as bs else false

/-- Propositional form of `keyLeB`. -/
def keyLe (a b : Key) : Prop := keyLeB a b = true

instance : DecidableRel keyLe := fun a b =>
  inferInstanceAs (Decidable (keyLeB a b = true))

/-- Model of Python `sorted` over composite keys. -/
def sortKeys (l : List Key) : List Key := List.insertionSort keyLe l

/-- One difference record (lines 277-284): the composite key values (one per
key column, in key-column order), the compare column, and the two values. -/
structure DiffRow where
  key : Key
  column : String
  value_file1 : String
  value_file2 : String
  deriving DecidableEq, Repr

/-- The inner loop over compare columns for one shared key (lines 273-285):
one difference record per compare column whose two values differ. -/
def diffsForKey (k : Key) (r1 r2 : Record) (compare_columns : List String) :
    List DiffRow :=
  compare_columns.filterMap (fun col =>
    let v1 := rgetD r1 col ""
    let v2 := rgetD r2 col ""
    if v1 ≠ v2 then some ⟨k, col, v1, v2⟩ else none)

/-- One CSV file written by `compare_csv_by_keys`, tagged by which of the
three reports it is. -/
inductive FileWrite where
  | only1 (path : String) (rows : List Record)
  | only2 (path : String) (rows : List Record)
  | diff (path : String) (rows : List DiffRow)
  deriving DecidableEq, Repr

/-- Outcome of `compare_csv_by_keys`: the two early "no data" returns
(lines 214-219) or a completed comparison carrying the three reported row
sequences and the files actually written. -/
inductive CompareOutcome where
  | noData1
  | noData2
  | done (onlyA onlyB : List Record) (diffs : List DiffRow)
      (writes : List FileWrite)
  deriving DecidableEq, Repr

/-- Compare-column validation (lines 221-226): the first missing column
raises, checking file1's header before file2's for each column. -/
def validateCompareCols (first1 first2 : Record) (compare_columns : List String) :
    Option CsvError :=
  match compare_columns.find?
      (fun c => !decide (c ∈ hdr first1) || !decide (c ∈ hdr first2)) with
  | some c =>
    some (if c ∈ hdr first1 then .columnNotFoundFile2 c else .columnNotFoundFile1 c)
  | none => none

/-- Key-set difference `keys(idxA) - keys(idxB)` iterated in sorted order,
Python `sorted(only_in_1)` over `keys1 - keys2` (lines 231-245). -/
def onlyKeys (idxA idxB : Index) : List Key :=
  sortKeys ((idxA.map Prod.fst).filter (fun k => !decide (k ∈ idxB.map Prod.fst)))

/-- Key-set intersection iterated in sorted order, Python
`sorted(in_both)` over `keys1 & keys2` (lines 236, 270). -/
def sharedKeys (idx1 idx2 : Index) : List Key :=
  sortKeys ((idx1.map Prod.fst).filter (fun k => decide (k ∈ idx2.map Prod.fst)))

/-- The full records reported for a sorted list of keys, Python `idx[k]`
for `k in sorted(keys)` (lines 245-250, 260-265). -/
def onlyRows (idx : Index) (ks : List Key) : List Record :=
  ks.map (fun k => (lookupIdx idx k).getD [])

/-- All difference records, in shared-key sorted order and compare-column
order within one key (lines 269-285). -/
def allDiffs (idx1 idx2 : Index) (compare_columns : List String) :
    List DiffRow :=
  (sharedKeys idx1 idx2).flatMap (fun k =>
    diffsForKey k ((lookupIdx idx1 k).getD []) ((lookupIdx idx2 k).getD [])
      compare_columns)

/-- Set algebra and reporting of `compare_csv_by_keys` after validation
(lines 228-299): key-set differences and intersection iterated in sorted
order, per-column difference records, and the conditional file writes
(a report file is written only when its path is given and, for the
only-in and diff reports, the corresponding row set is non-empty). -/
def compareCore (idx1 idx2 : Index) (compare_columns : List String)
    (diff_output_path only_in_1_output only_in_2_output : Option String) :
    CompareOutcome :=
  let onlyA := onlyRows idx1 (onlyKeys idx1 idx2)
  let onlyB := onlyRows idx2 (onlyKeys idx2 idx1)
  let diffs := allDiffs idx1 idx2 compare_columns
  let w1 : List FileWrite :=
    if (onlyKeys idx1 idx2).isEmpty then [] else
      match only_in_1_output with
      | some p => [.only1 p onlyA]
      | none => []
  let w2 : List FileWrite :=
    if (onlyKeys idx2 idx1).isEmpty then [] else
      match only_in_2_output with
      | some p => [.only2 p onlyB]
      | none => []
  let w3 : List FileWrite :=
    match diff_output_path with
    | some p => if diffs.isEmpty then [] else [.diff p diffs]
    | none => []
  .done onlyA onlyB diffs (w1 ++ w2 ++ w3)

/-- Model of `compare_csv_by_keys` (lines 196-299) on the already-read row
sequences: empty-input short circuits (file1 checked first), compare-column
validation, key indexing of both sides, then the reconciliation proper. -/
def compare_csv_by_keys (rows1 rows2 : List Record)
    (key_columns compare_columns : List String)
    (diff_output_path only_in_1_output only_in_2_output : Option String) :
    Except CsvError CompareOutcome :=
  match rows1, rows2 with
  | [], _ => .ok .noData1
  | _ :: _, [] => .ok .noData2
  | r1h :: r1t, r2h :: r2t =>
    match validateCompareCols r1h r2h compare_columns with
    | some e => .error e
    | none =>
      match index_by_keys (r1h :: r1t) key_columns,
          index_by_keys (r2h :: r2t) key_columns with
      | .error e, _ => .error e
      | .ok _, .error e => .error e
      | .ok idx1, .ok idx2 =>
        .ok (compareCore idx1 idx2 compare_columns diff_output_path
          only_in_1_output only_in_2_output)

/-- Model of `filter_rows_by_column` (lines 14-39) on the already-read rows:
keep the rows where `r.get(column_name) == value`. -/
def filter_rows_by_column (rows : List Record) (column_name value : String) :
    Except CsvError (List Record) :=
  match rows with
  | [] => .ok []
  | first :: rest =>
    if decide (column_name ∈ hdr first) then
      .ok ((first :: rest).filter (fun r => decide (rget r column_name = some value)))
    else
      .error (.columnNotFound column_name)

/-- Model of `filter_rows_by_column_value` (lines 41-77): partition the rows
on `r.get("Attribute 2 value(s)") == value` into matched and unmatched. -/
def filter_rows_by_column_value (rows : List Record) (value : String) :
    Except CsvError (List Record × List Record) :=
  match rows with
  | [] => .ok ([], [])
  | first :: rest =>
    if decide ("Attribute 2 value(s)" ∈ hdr first) then
      .ok ((first :: rest).filter
             (fun r => decide (rget r "Attribute 2 value(s)" = some value)),
           (first :: rest).filter
             (fun r => !decide (rget r "Attribute 2 value(s)" = some value)))
    else
      .error (.columnNotFound "Attribute 2 value(s)")

/-- Python `str.startswith` on character lists. -/
def startsWithL : List Char → List Char → Bool
  | _, [] => true
  | [], _ :: _ => false
  | c :: cs, p :: ps => c == p && startsWithL cs ps

/-- Python `str.strip()`: drop leading and trailing whitespace. -/
def stripL (l : List Char) : List Char :=
  ((l.dropWhile Char.isWhitespace).reverse.dropWhile Char.isWhitespace).reverse

/-- Python `str.lower()` (character-wise case folding). -/
def lowerL (l : List Char) : List Char := l.map Char.toLower

/-- The `starts` closure of the prefix filter (lines 105-116): optional
strip of the value, then a plain or case-folded `startswith` test (in the
case-insensitive branch both the value and the prefix are lowercased). -/
def startsTest (case_sensitive trim : Bool) (pfx val : String) : Bool :=
  let v := if trim then stripL val.data else val.data
  if case_sensitive then
    startsWithL v pfx.data
  else
    startsWithL (lowerL v) (lowerL pfx.data)

/-- Model of the prefix filter (source lines 80-127) on the already-read
rows. -/
def filter_rows_by_column_prefix (rows : List Record) (column_name pfx : String)
    (case_sensitive trim : Bool) : Except CsvError (List Record) :=
  match rows with
  | [] => .ok []
  | first :: rest =>
    if decide (column_name ∈ hdr first) then
      .ok ((first :: rest).filter
        (fun r => startsTest case_sensitive trim pfx (rgetD r column_name "")))
    else
      .error (.columnNotFound column_name)

/-- Word-character test for the regex `\w` (letters, digits, underscore). -/
def isWordChar (c : Char) : Bool := c.isAlphanum || c = '_'

/-- Case-insensitive test that a character list starts with the literal
`cuba` (the regex literal under `re.IGNORECASE`). -/
def startsWithCubaCI : List Char → Bool
  | c :: u :: b :: a :: _ =>
    c.toLower == 'c' && u.toLower == 'u' && b.toLower == 'b' && a.toLower == 'a'
  | _ => false

/-- Trailing `\w*\b` of the pattern after the literal: greedily consume word
characters; the run always ends at a word boundary (end of text or a
non-word character), so this succeeds on every suffix — kept for structural
fidelity to the regex. -/
def tailRunOk : List Char → Bool
  | [] => true
  | c :: rest => if isWordChar c then tailRunOk rest else true

/-- Search loop of `re.search` for the pattern `\b(cuba\w*)\b` (line 158):
try a match at every position; the left `\b` holds when the previous
character is absent or a non-word character (the matched `c` is a word
character). -/
def searchCuba (prevIsWord : Bool) : List Char → Bool
  | [] => false
  | c :: rest =>
    (!prevIsWord && startsWithCubaCI (c :: rest) && tailRunOk ((c :: rest).drop 4))
    || searchCuba (isWordChar c) rest

/-- The `matches` closure (lines 160-163): an empty value never matches;
otherwise search the text for the token pattern. -/
def cubaMatches (val : String) : Bool :=
  if val = "" then false else searchCuba false val.data

/-- Model of `filter_rows_name_matches_cuba` (lines 130-174) on the
already-read rows. -/
def filter_rows_name_matches_cuba (rows : List Record) (column_name : String) :
    Except CsvError (List Record) :=
  match rows with
  | [] => .ok []
  | first :: rest =>
    if decide (column_name ∈ hdr first) then
      .ok ((first :: rest).filter (fun r => cubaMatches (rgetD r column_name "")))
    else
      .error (.columnNotFound column_name)

/-! Basic facts about the key order used by `sorted`. -/

theorem keyLeB_refl (a : Key) : keyLeB a a = true := by
  induction a with
  | nil => rfl
  | cons x xs ih => simp [keyLeB, lt_self_iff_false, ih]

theorem keyLeB_total (a b : Key) : keyLeB a b = true ∨ keyLeB b a = true := by
  induction a generalizing b with
  | nil => exact Or.inl rfl
  | cons x xs ih =>
    cases b with
    | nil => exact Or.inr rfl
    | cons y ys =>
      rcases lt_trichotomy x y with h | h | h
      · exact Or.inl (by simp [keyLeB, h])
      · subst h
        rcases ih ys with h' | h'
        · exact Or.inl (by simp [keyLeB, lt_self_iff_false, h'])
        · exact Or.inr (by simp [keyLeB, lt_self_iff_false, h'])
      · exact Or.inr (by simp [keyLeB, h])

theorem keyLeB_cases {x y : String} {xs ys : Key}
    (h : keyLeB (x :: xs) (y :: ys) = true) :
    x < y ∨ (x = y ∧ keyLeB xs ys = true) := by
  by_cases hlt : x < y
  · exact Or.inl hlt
  · by_cases heq : x = y
    · refine Or.inr ⟨heq, ?_⟩
      simpa [keyLeB, hlt, heq] using h
    · simp [keyLeB, hlt, heq] at h

theorem keyLeB_trans {a b c : Key} (h1 : keyLeB a b = true)
    (h2 : keyLeB b c = true) : keyLeB a c = true := by
  induction a generalizing b c with
  | nil => rfl
  | cons x xs ih =>
    cases b with
    | nil => simp [keyLeB] at h1
    | cons y ys =>
      cases c with
      | nil => simp [keyLeB] at h2
      | cons z zs =>
        rcases keyLeB_cases h1 with hxy | ⟨hxy, h1'⟩ <;>
          rcases keyLeB_cases h2 with hyz | ⟨hyz, h2'⟩
        · simp [keyLeB, lt_trans hxy hyz]
        · subst hyz; simp [keyLeB, hxy]
        · subst hxy; simp [keyLeB, hyz]
        · subst hxy; subst hyz
          simp [keyLeB, lt_self_iff_false]
          exact ih h1' h2'

instance : IsTotal Key keyLe := ⟨keyLeB_total⟩

instance : IsTrans Key keyLe := ⟨fun _ _ _ => keyLeB_trans⟩

theorem sortKeys_sorted (l : List Key) : List.Pairwise keyLe (sortKeys l) :=
  List.sorted_insertionSort keyLe l

theorem sortKeys_perm (l : List Key) : (sortKeys l).Perm l :=
  List.perm_insertionSort keyLe l

theorem mem_sortKeys {l : List Key} {k : Key} : k ∈ sortKeys l ↔ k ∈ l :=
  (sortKeys_perm l).mem_iff

theorem sortKeys_nodup {l : List Key} (h : l.Nodup) : (sortKeys l).Nodup :=
  ((sortKeys_perm l).nodup_iff).mpr h

/-! Facts about the dict insertion `index[key] = r` and the index loop. -/

theorem lookupIdx_insertIdx (idx : Index) (k k' : Key) (r : Record) :
    lookupIdx (insertIdx idx k r) k'
      = if k = k' then some r else lookupIdx idx k' := by
  induction idx with
  | nil =>
    by_cases h : k = k' <;> simp [insertIdx, lookupIdx, h]
  | cons p rest ih =>
    obtain ⟨k0, r0⟩ := p
    by_cases h0 : k0 = k
    · subst h0
      by_cases h' : k0 = k' <;> simp [insertIdx, lookupIdx, h']
    · by_cases h' : k0 = k'
      · subst h'
        have hne : k ≠ k0 := fun he => h0 he.symm
        simp [insertIdx, lookupIdx, h0, hne]
      · simp [insertIdx, lookupIdx, h0, h', ih]

theorem mem_keys_insertIdx {idx : Index} {k k' : Key} {r : Record} :
    k' ∈ (insertIdx idx k r).map Prod.fst
      ↔ k' ∈ idx.map Prod.fst ∨ k' = k := by
  induction idx with
  | nil => simp [insertIdx]
  | cons p rest ih =>
    obtain ⟨k0, r0⟩ := p
    by_cases h : k0 = k
    · subst h
      simp [insertIdx]
      tauto
    · simp [insertIdx, h, ih]
      tauto

theorem nodup_keys_insertIdx {idx : Index} {k : Key} {r : Record}
    (h : (idx.map Prod.fst).Nodup) :
    ((insertIdx idx k r).map Prod.fst).Nodup := by
  induction idx with
  | nil => simp [insertIdx]
  | cons p rest ih =>
    obtain ⟨k0, r0⟩ := p
    simp only [List.map_cons, List.nodup_cons] at h
    by_cases hk : k0 = k
    · subst hk
      simpa [insertIdx] using h
    · simp only [insertIdx, hk, if_false, List.map_cons, List.nodup_cons]
      refine ⟨?_, ih h.2⟩
      rw [mem_keys_insertIdx]
      rintro (hm | he)
      · exact h.1 hm
      · exact hk he

theorem mem_insertIdx {idx : Index} {k : Key} {r : Record} {x : Key × Record}
    (h : x ∈ insertIdx idx k r) : x ∈ idx ∨ x = (k, r) := by
  induction idx with
  | nil =>
    simp [insertIdx] at h
    exact Or.inr h
  | cons p rest ih =>
    obtain ⟨k0, r0⟩ := p
    by_cases hk : k0 = k
    · subst hk
      simp only [insertIdx, if_pos rfl] at h
      rcases List.mem_cons.mp h with h1 | h1
      · exact Or.inr h1
      · exact Or.inl (List.mem_cons_of_mem _ h1)
    · simp only [insertIdx, hk, if_false] at h
      rcases List.mem_cons.mp h with h1 | h1
      · exact Or.inl (by simp [h1])
      · rcases ih h1 with h2 | h2
        · exact Or.inl (List.mem_cons_of_mem _ h2)
        · exact Or.inr h2

theorem mem_of_lookupIdx {idx : Index} {k : Key} {r : Record}
    (h : lookupIdx idx k = some r) : (k, r) ∈ idx := by
  induction idx with
  | nil => simp [lookupIdx] at h
  | cons p rest ih =>
    obtain ⟨k0, r0⟩ := p
    by_cases h0 : k0 = k
    · subst h0
      rw [show lookupIdx ((k0, r0) :: rest) k0 = some r0 from if_pos rfl] at h
      cases h
      simp
    · simp only [lookupIdx, h0, if_false] at h
      exact List.mem_cons_of_mem _ (ih h)

theorem lookupIdx_isSome_of_mem {idx : Index} {k : Key}
    (h : k ∈ idx.map Prod.fst) : ∃ r, lookupIdx idx k = some r := by
  induction idx with
  | nil => simp at h
  | cons p rest ih =>
    obtain ⟨k0, r0⟩ := p
    by_cases h0 : k0 = k
    · exact ⟨r0, by simp [lookupIdx, h0]⟩
    · simp only [List.map_cons, List.mem_cons] at h
      rcases h with h | h
      · exact absurd h.symm h0
      · obtain ⟨r, hr⟩ := ih h
        exact ⟨r, by simp [lookupIdx, h0, hr]⟩

theorem lookupIdx_foldl_insert (K : List String) (rows : List Record)
    (idx : Index) (k : Key) :
    lookupIdx (rows.foldl (fun i r => insertIdx i (rowKey r K) r) idx) k
      = ((rows.filter (fun r => decide (rowKey r K = k))).getLast?).or
          (lookupIdx idx k) := by
  induction rows generalizing idx with
  | nil => simp
  | cons r rows ih =>
    rw [List.foldl_cons, ih, lookupIdx_insertIdx]
    by_cases hk : rowKey r K = k
    · have hf : (r :: rows).filter (fun r => decide (rowKey r K = k))
          = r :: rows.filter (fun r => decide (rowKey r K = k)) := by
        simp [List.filter_cons, hk]
      rw [hf, if_pos hk]
      cases hfl : rows.filter (fun r => decide (rowKey r K = k)) with
      | nil => simp
      | cons a l =>
        rw [List.getLast?_cons_cons]
        have h : ((a :: l).getLast?).isSome := by
          simp [List.getLast?_isSome]
        obtain ⟨x, hx⟩ := Option.isSome_iff_exists.mp h
        simp [hx]
    · have hf : (r :: rows).filter (fun r => decide (rowKey r K = k))
          = rows.filter (fun r => decide (rowKey r K = k)) := by
        simp [List.filter_cons, hk]
      rw [hf, if_neg hk]

theorem mem_keys_foldl {K : List String} {rows : List Record}
    {idx : Index} {k : Key} :
    k ∈ (rows.foldl (fun i r => insertIdx i (rowKey r K) r) idx).map Prod.fst
      ↔ k ∈ idx.map Prod.fst ∨ k ∈ rows.map (fun r => rowKey r K) := by
  induction rows generalizing idx with
  | nil => simp
  | cons r rows ih =>
    rw [List.foldl_cons, ih, mem_keys_insertIdx]
    simp
    tauto

theorem nodup_keys_foldl {K : List String} {rows : List Record} {idx : Index}
    (h : (idx.map Prod.fst).Nodup) :
    ((rows.foldl (fun i r => insertIdx i (rowKey r K) r) idx).map Prod.fst).Nodup := by
  induction rows generalizing idx with
  | nil => exact h
  | cons r rows ih => exact ih (nodup_keys_insertIdx h)

theorem buildLoop_keys_nodup (rows : List Record) (K : List String) :
    ((buildLoop rows K).map Prod.fst).Nodup :=
  nodup_keys_foldl (by simp)

theorem mem_keys_buildLoop {rows : List Record} {K : List String} {k : Key} :
    k ∈ (buildLoop rows K).map Prod.fst
      ↔ k ∈ rows.map (fun r => rowKey r K) := by
  rw [buildLoop, mem_keys_foldl]
  simp

theorem mem_foldl_insert {K : List String} {rows : List Record} {idx : Index}
    {x : Key × Record}
    (h : x ∈ rows.foldl (fun i r => insertIdx i (rowKey r K) r) idx) :
    x ∈ idx ∨ ∃ r ∈ rows, x = (rowKey r K, r) := by
  induction rows generalizing idx with
  | nil => exact Or.inl h
  | cons r rows ih =>
    rw [List.foldl_cons] at h
    rcases ih h with h' | h'
    · rcases mem_insertIdx h' with h'' | h''
      · exact Or.inl h''
      · exact Or.inr ⟨r, by simp, h''⟩
    · obtain ⟨r', hr', he⟩ := h'
      exact Or.inr ⟨r', by simp [hr'], he⟩

theorem mem_buildLoop {rows : List Record} {K : List String}
    {x : Key × Record} (h : x ∈ buildLoop rows K) :
    ∃ r ∈ rows, x = (rowKey r K, r) := by
  rcases mem_foldl_insert h with h' | h'
  · simp at h'
  · exact h'

theorem index_by_keys_ok {rows : List Record} {K : List String} {idx : Index}
    (h : index_by_keys rows K = .ok idx) : idx = buildLoop rows K := by
  cases rows with
  | nil =>
    simp only [index_by_keys] at h
    cases h
    simp [buildLoop]
  | cons first rest =>
    simp only [index_by_keys] at h
    cases hf : List.find? (fun c => !decide (c ∈ hdr first)) K with
    | some c => rw [hf] at h; cases h
    | none => rw [hf] at h; cases h; rfl

/-! Claim theorems. -/

/-- C1: reconciling file1 records `[{id:1,price:10},{id:2,price:20}]` with
file2 records `[{id:2,price:25},{id:3,price:30}]` on key `[id]` and compare
columns `[price]` yields onlyA `[{id:1,price:10}]`, onlyB `[{id:3,price:30}]`
and exactly one difference record `{id:2, column:price, value_file1:20,
value_file2:25}` (each report also written to its output file). -/
theorem reconcile_concrete_scenario :
    compare_csv_by_keys
      [[("id","1"),("price","10")], [("id","2"),("price","20")]]
      [[("id","2"),("price","25")], [("id","3"),("price","30")]]
      ["id"] ["price"]
      (some "differences.csv") (some "only_in_file1.csv") (some "only_in_file2.csv")
      = .ok (.done
          [[("id","1"),("price","10")]]
          [[("id","3"),("price","30")]]
          [⟨["2"], "price", "20", "25"⟩]
          [.only1 "only_in_file1.csv" [[("id","1"),("price","10")]],
           .only2 "only_in_file2.csv" [[("id","3"),("price","30")]],
           .diff "differences.csv" [⟨["2"], "price", "20", "25"⟩]]) := by
  rfl

/-- C2: the index built by `index_by_keys` is last-write-wins — for every
key, the entry stored for it is exactly the last record (in sequence order)
whose composite key equals it, with no error or warning. -/
theorem index_last_write_wins (rows : List Record) (K : List String)
    (idx : Index) (k : Key) (h : index_by_keys rows K = .ok idx) :
    lookupIdx idx k
      = (rows.filter (fun r => decide (rowKey r K = k))).getLast? := by
  rcases index_by_keys_ok h with rfl
  rw [buildLoop, lookupIdx_foldl_insert]
  simp [lookupIdx]

/-- Witness for C2: on `[{id:1,v:"a"},{id:1,v:"b"}]` with key `[id]` the
single entry for key `("1",)` is the later record, whose `v` is `"b"`. -/
theorem index_last_write_wins_witness :
    lookupIdx [(["1"], [("id","1"),("v","b")])] ["1"]
      = ([[("id","1"),("v","a")], [("id","1"),("v","b")]].filter
          (fun r => decide (rowKey r ["id"] = ["1"]))).getLast? :=
  index_last_write_wins
    [[("id","1"),("v","a")], [("id","1"),("v","b")]] ["id"]
    [(["1"], [("id","1"),("v","b")])] ["1"] rfl

/-- C3: for a non-empty record sequence whose key columns validate,
`index_by_keys` has exactly as many entries as there are distinct composite
keys among the records; when no two records share a composite key it has
exactly as many entries as records. -/
theorem index_entry_count (rows : List Record) (K : List String) (idx : Index)
    (hne : rows ≠ []) (h : index_by_keys rows K = .ok idx) :
    idx.length = (rows.map (fun r => rowKey r K)).dedup.length ∧
      ((rows.map (fun r => rowKey r K)).Nodup → idx.length = rows.length) := by
  rcases index_by_keys_ok h with rfl
  have hnd := buildLoop_keys_nodup rows K
  have hlen : (buildLoop rows K).length
      = ((buildLoop rows K).map Prod.fst).length := by
    rw [List.length_map]
  have hfin : ((buildLoop rows K).map Prod.fst).toFinset
      = (rows.map (fun r => rowKey r K)).toFinset := by
    ext k
    simp only [List.mem_toFinset]
    exact mem_keys_buildLoop
  have hded : ((buildLoop rows K).map Prod.fst).dedup
      = (buildLoop rows K).map Prod.fst := List.dedup_eq_self.mpr hnd
  have h1 : (buildLoop rows K).length
      = (rows.map (fun r => rowKey r K)).dedup.length := by
    rw [hlen, ← hded, ← List.card_toFinset, hfin, List.card_toFinset]
  refine ⟨h1, fun hnd2 => ?_⟩
  rw [h1, List.dedup_eq_self.mpr hnd2, List.length_map]

/-- Witness for C3: two records with distinct keys give two entries. -/
theorem index_entry_count_witness :
    ([(["1"], [("id","1")]), (["2"], [("id","2")])] : Index).length
        = ([[("id","1")], [("id","2")]].map
            (fun r => rowKey r ["id"])).dedup.length ∧
      (([[("id","1")], [("id","2")]].map (fun r => rowKey r ["id"])).Nodup →
        ([(["1"], [("id","1")]), (["2"], [("id","2")])] : Index).length
          = ([[("id","1")], [("id","2")]] : List Record).length) :=
  index_entry_count [[("id","1")], [("id","2")]] ["id"]
    [(["1"], [("id","1")]), (["2"], [("id","2")])] (by simp) rfl

/-- C5: an empty input short-circuits `compare_csv_by_keys`: it returns the
explicit no-data outcome for the empty side (file1 checked first), without
raising and without any file writes, and that outcome is distinguishable
from every completed-comparison outcome, in particular from a completed
comparison with no differences. -/
theorem compare_empty_short_circuit (rows1 rows2 : List Record)
    (K C : List String) (dp p1 p2 : Option String) :
    (rows1 = [] →
      compare_csv_by_keys rows1 rows2 K C dp p1 p2 = .ok .noData1) ∧
    (rows1 ≠ [] → rows2 = [] →
      compare_csv_by_keys rows1 rows2 K C dp p1 p2 = .ok .noData2) ∧
    (∀ (oA oB : List Record) (ds : List DiffRow) (ws : List FileWrite),
      CompareOutcome.noData1 ≠ .done oA oB ds ws ∧
      CompareOutcome.noData2 ≠ .done oA oB ds ws) := by
  refine ⟨?_, ?_, ?_⟩
  · rintro rfl
    rfl
  · intro h1 h2
    subst h2
    cases rows1 with
    | nil => exact absurd rfl h1
    | cons a l => rfl
  · intro oA oB ds ws
    constructor
    · intro h
      cases h
    · intro h
      cases h

/-- Witness for C5: concrete empty file1 gives the no-data outcome. -/
theorem compare_empty_short_circuit_witness :
    compare_csv_by_keys ([] : List Record) [[("id","1")]] ["id"] ["id"]
      none none none = .ok .noData1 :=
  (compare_empty_short_circuit [] [[("id","1")]] ["id"] ["id"]
    none none none).1 rfl

/-- C8: the token-pattern filter for target `cuba` on Name values
`["Cuba", "Cuban Sandwich", "Aruba", "Cubalibre!"]` keeps exactly the
records with `Cuba`, `Cuban Sandwich` and `Cubalibre!` (the trailing `!`
is itself a boundary) and drops `Aruba` (no left word boundary). -/
theorem cuba_token_filter_example :
    filter_rows_name_matches_cuba
      [[("Name","Cuba")], [("Name","Cuban Sandwich")], [("Name","Aruba")],
       [("Name","Cubalibre!")]] "Name"
      = .ok [[("Name","Cuba")], [("Name","Cuban Sandwich")],
             [("Name","Cubalibre!")]] := by
  rfl

/-- C4: with both inputs non-empty, a compare column missing from either
dataset's header makes `compare_csv_by_keys` fail with an error naming a
missing compare column (file1's header checked first).  The error is a
compare-column error whatever the key columns are — validation precedes key
indexing — and an error result carries no outcome and no file writes, so
the operation is never partially applied. -/
theorem compare_missing_column_error (f1 f2 : Record)
    (t1 t2 : List Record) (K C : List String) (dp p1 p2 : Option String)
    (c : String) (hc : c ∈ C) (hm : c ∉ hdr f1 ∨ c ∉ hdr f2) :
    ∃ c', c' ∈ C ∧
      ((c' ∉ hdr f1 ∧
        compare_csv_by_keys (f1 :: t1) (f2 :: t2) K C dp p1 p2
          = .error (.columnNotFoundFile1 c')) ∨
       (c' ∈ hdr f1 ∧ c' ∉ hdr f2 ∧
        compare_csv_by_keys (f1 :: t1) (f2 :: t2) K C dp p1 p2
          = .error (.columnNotFoundFile2 c'))) := by
  have hpred : ∃ x ∈ C,
      (fun c => !decide (c ∈ hdr f1) || !decide (c ∈ hdr f2)) x = true := by
    refine ⟨c, hc, ?_⟩
    rcases hm with hm | hm <;> simp [hm]
  have hsome : (C.find?
      (fun c => !decide (c ∈ hdr f1) || !decide (c ∈ hdr f2))).isSome :=
    List.find?_isSome.mpr hpred
  obtain ⟨c', hc'⟩ := Option.isSome_iff_exists.mp hsome
  have hmem := List.mem_of_find?_eq_some hc'
  have hp := List.find?_some hc'
  refine ⟨c', hmem, ?_⟩
  have hcomp : compare_csv_by_keys (f1 :: t1) (f2 :: t2) K C dp p1 p2
      = .error (if c' ∈ hdr f1 then .columnNotFoundFile2 c'
                else .columnNotFoundFile1 c') := by
    simp only [compare_csv_by_keys, validateCompareCols, hc']
  by_cases h1 : c' ∈ hdr f1
  · right
    refine ⟨h1, ?_, ?_⟩
    · simp [h1] at hp
      exact hp
    · rw [hcomp, if_pos h1]
  · left
    exact ⟨h1, by rw [hcomp, if_neg h1]⟩

/-- Witness for C4: compare column `price` absent from file2's header. -/
theorem compare_missing_column_error_witness :
    ∃ c', c' ∈ ["price"] ∧
      ((c' ∉ hdr [("id","1"),("price","10")] ∧
        compare_csv_by_keys [[("id","1"),("price","10")]] [[("id","2")]]
          ["id"] ["price"] none none none
          = .error (.columnNotFoundFile1 c')) ∨
       (c' ∈ hdr [("id","1"),("price","10")] ∧ c' ∉ hdr [("id","2")] ∧
        compare_csv_by_keys [[("id","1"),("price","10")]] [[("id","2")]]
          ["id"] ["price"] none none none
          = .error (.columnNotFoundFile2 c'))) :=
  compare_missing_column_error [("id","1"),("price","10")] [("id","2")]
    [] [] ["id"] ["price"] none none none "price" (by simp)
    (Or.inr (by simp [hdr]))

/-- Inversion of a completed comparison: a `done` outcome can only come out
of the final branch, with both indexes built by the insertion loop. -/
theorem compare_done_inv {rows1 rows2 : List Record} {K C : List String}
    {dp p1 p2 : Option String} {oA oB : List Record} {ds : List DiffRow}
    {ws : List FileWrite}
    (h : compare_csv_by_keys rows1 rows2 K C dp p1 p2
        = .ok (.done oA oB ds ws)) :
    compareCore (buildLoop rows1 K) (buildLoop rows2 K) C dp p1 p2
      = .done oA oB ds ws := by
  cases rows1 with
  | nil => simp [compare_csv_by_keys] at h
  | cons f1 t1 =>
    cases rows2 with
    | nil => simp [compare_csv_by_keys] at h
    | cons f2 t2 =>
      simp only [compare_csv_by_keys] at h
      cases hv : validateCompareCols f1 f2 C with
      | some e =>
        rw [hv] at h
        exact Except.noConfusion h
      | none =>
        rw [hv] at h
        cases hi1 : index_by_keys (f1 :: t1) K with
        | error e =>
          rw [hi1] at h
          exact Except.noConfusion h
        | ok idx1 =>
          cases hi2 : index_by_keys (f2 :: t2) K with
          | error e =>
            rw [hi1, hi2] at h
            exact Except.noConfusion h
          | ok idx2 =>
            rw [hi1, hi2] at h
            obtain rfl := index_by_keys_ok hi1
            obtain rfl := index_by_keys_ok hi2
            injection h

/-- Write conditions of the reconciler: with both only-in output paths
given, the only-in-file1 (resp. file2) report file is written exactly when
its row set is non-empty. -/
theorem compareCore_only_writes (idx1 idx2 : Index) (C : List String)
    (dp : Option String) (p1 p2 : String) (oA oB : List Record)
    (ds : List DiffRow) (ws : List FileWrite)
    (h : compareCore idx1 idx2 C dp (some p1) (some p2)
        = .done oA oB ds ws) :
    ((∃ rs, FileWrite.only1 p1 rs ∈ ws) ↔ oA ≠ []) ∧
    ((∃ rs, FileWrite.only2 p2 rs ∈ ws) ↔ oB ≠ []) := by
  simp only [compareCore] at h
  injection h with h1 h2 h3 h4
  subst h1
  subst h2
  subst h3
  subst h4
  constructor
  · constructor
    · rintro ⟨rs, hmem⟩
      simp only [List.mem_append] at hmem
      rcases hmem with (hmem | hmem) | hmem
      · by_cases hE : (onlyKeys idx1 idx2).isEmpty
        · rw [if_pos hE] at hmem
          simp at hmem
        · intro hnil
          rw [onlyRows] at hnil
          rw [List.map_eq_nil_iff.mp hnil] at hE
          exact hE rfl
      · by_cases hE : (onlyKeys idx2 idx1).isEmpty
        · rw [if_pos hE] at hmem
          simp at hmem
        · rw [if_neg hE] at hmem
          simp at hmem
      · cases dp with
        | none => simp at hmem
        | some p =>
          by_cases hE : (allDiffs idx1 idx2 C).isEmpty
          · simp only [if_pos hE] at hmem
            simp at hmem
          · simp only [if_neg hE] at hmem
            simp at hmem
    · intro hne
      have hkne : ¬ (onlyKeys idx1 idx2).isEmpty = true := by
        intro hE
        apply hne
        rw [onlyRows, List.isEmpty_iff.mp hE]
        rfl
      refine ⟨onlyRows idx1 (onlyKeys idx1 idx2), ?_⟩
      simp [hkne]
  · constructor
    · rintro ⟨rs, hmem⟩
      simp only [List.mem_append] at hmem
      rcases hmem with (hmem | hmem) | hmem
      · by_cases hE : (onlyKeys idx1 idx2).isEmpty
        · rw [if_pos hE] at hmem
          simp at hmem
        · rw [if_neg hE] at hmem
          simp at hmem
      · by_cases hE : (onlyKeys idx2 idx1).isEmpty
        · rw [if_pos hE] at hmem
          simp at hmem
        · intro hnil
          rw [onlyRows] at hnil
          rw [List.map_eq_nil_iff.mp hnil] at hE
          simp at hE
      · cases dp with
        | none => simp at hmem
        | some p =>
          by_cases hE : (allDiffs idx1 idx2 C).isEmpty
          · simp only [if_pos hE] at hmem
            simp at hmem
          · simp only [if_neg hE] at hmem
            simp at hmem
    · intro hne
      have hkne : ¬ (onlyKeys idx2 idx1).isEmpty = true := by
        intro hE
        apply hne
        rw [onlyRows, List.isEmpty_iff.mp hE]
        rfl
      refine ⟨onlyRows idx2 (onlyKeys idx2 idx1), ?_⟩
      simp [hkne]

/-- C9: when both only-in output paths are supplied, the only-in-file1 and
only-in-file2 report files are created exactly when the corresponding
only-in row set is non-empty — in particular, when every key of one
dataset also appears in the other, no file is written at that dataset's
only-in output path even though a path was given. -/
theorem only_in_files_written_iff_nonempty (rows1 rows2 : List Record)
    (K C : List String) (dp : Option String) (p1 p2 : String)
    (oA oB : List Record) (ds : List DiffRow) (ws : List FileWrite)
    (h : compare_csv_by_keys rows1 rows2 K C dp (some p1) (some p2)
        = .ok (.done oA oB ds ws)) :
    ((∃ rs, FileWrite.only1 p1 rs ∈ ws) ↔ oA ≠ []) ∧
    ((∃ rs, FileWrite.only2 p2 rs ∈ ws) ↔ oB ≠ []) :=
  compareCore_only_writes _ _ _ _ _ _ _ _ _ _ (compare_done_inv h)

/-- Witness for C9: identical single-row datasets — no only-in file is
written even though both paths were given. -/
theorem only_in_files_written_iff_nonempty_witness :
    ((∃ rs, FileWrite.only1 "o1.csv" rs ∈ ([] : List FileWrite)) ↔
      ([] : List Record) ≠ []) ∧
    ((∃ rs, FileWrite.only2 "o2.csv" rs ∈ ([] : List FileWrite)) ↔
      ([] : List Record) ≠ []) :=
  only_in_files_written_iff_nonempty
    [[("id","1")]] [[("id","1")]] ["id"] ["id"] (some "d.csv") "o1.csv" "o2.csv"
    [] [] [] [] rfl

/-- Comparing a record with itself over any compare columns emits no
difference record. -/
theorem diffsForKey_self (k : Key) (r : Record) (C : List String) :
    diffsForKey k r r C = [] := by
  rw [diffsForKey, List.filterMap_eq_nil_iff]
  intro c hc
  simp

/-- An index compared against itself yields no difference records. -/
theorem allDiffs_self (idx : Index) (C : List String) :
    allDiffs idx idx C = [] := by
  rw [allDiffs, List.flatMap_eq_nil_iff]
  intro k hk
  exact diffsForKey_self k _ C

/-- The key-set difference of an index with itself is empty. -/
theorem onlyKeys_self (idx : Index) : onlyKeys idx idx = [] := by
  rw [onlyKeys]
  have h : (idx.map Prod.fst).filter
      (fun k => !decide (k ∈ idx.map Prod.fst)) = [] := by
    rw [List.filter_eq_nil_iff]
    intro k hk
    simp [hk]
  rw [h]
  rfl

/-- Reconciling an index against itself reports nothing and writes no
file. -/
theorem compareCore_self (idx : Index) (C : List String)
    (dp p1 p2 : Option String) :
    compareCore idx idx C dp p1 p2 = .done [] [] [] [] := by
  cases dp <;>
    simp [compareCore, onlyKeys_self, allDiffs_self, onlyRows]

/-- C7: reconciling a non-empty dataset against itself, with key and
compare columns valid for its header, yields empty onlyA, empty onlyB and
empty diffs (and writes no file). -/
theorem reconcile_self_empty (first : Record) (rest : List Record)
    (K C : List String) (dp p1 p2 : Option String)
    (hK : ∀ c ∈ K, c ∈ hdr first) (hC : ∀ c ∈ C, c ∈ hdr first) :
    compare_csv_by_keys (first :: rest) (first :: rest) K C dp p1 p2
      = .ok (.done [] [] [] []) := by
  have hfC : C.find?
      (fun c => !decide (c ∈ hdr first) || !decide (c ∈ hdr first)) = none := by
    rw [List.find?_eq_none]
    intro c hc
    simp [hC c hc]
  have hv : validateCompareCols first first C = none := by
    simp only [validateCompareCols, hfC]
  have hfK : K.find? (fun c => !decide (c ∈ hdr first)) = none := by
    rw [List.find?_eq_none]
    intro c hc
    simp [hK c hc]
  have hi : index_by_keys (first :: rest) K
      = .ok (buildLoop (first :: rest) K) := by
    simp only [index_by_keys, hfK]
  simp only [compare_csv_by_keys, hv, hi]
  rw [compareCore_self]

/-- Witness for C7: a one-row dataset against itself. -/
theorem reconcile_self_empty_witness :
    compare_csv_by_keys [[("id","1"),("price","10")]]
      [[("id","1"),("price","10")]] ["id"] ["price"]
      (some "d.csv") (some "o1.csv") (some "o2.csv")
      = .ok (.done [] [] [] []) :=
  reconcile_self_empty [("id","1"),("price","10")] [] ["id"] ["price"]
    (some "d.csv") (some "o1.csv") (some "o2.csv")
    (by intro c hc; simp at hc; simp [hc, hdr])
    (by intro c hc; simp at hc; simp [hc, hdr])

/-- C10: every filter returns a subsequence of its input — each returned
record is an input record, unmodified and in the original relative order —
and the matched/unmatched partition of the complement variant together
contains every input record exactly once (their concatenation is a
permutation of the input). -/
theorem filters_return_subsequence :
    (∀ (rows : List Record) (col v : String) (out : List Record),
      filter_rows_by_column rows col v = .ok out → out.Sublist rows) ∧
    (∀ (rows : List Record) (v : String) (m u : List Record),
      filter_rows_by_column_value rows v = .ok (m, u) →
        m.Sublist rows ∧ u.Sublist rows ∧ (m ++ u).Perm rows) ∧
    (∀ (rows : List Record) (col pfx : String) (cs tr : Bool)
        (out : List Record),
      filter_rows_by_column_prefix rows col pfx cs tr = .ok out →
        out.Sublist rows) ∧
    (∀ (rows : List Record) (col : String) (out : List Record),
      filter_rows_name_matches_cuba rows col = .ok out → out.Sublist rows) := by
  refine ⟨?_, ?_, ?_, ?_⟩
  · intro rows col v out h
    cases rows with
    | nil =>
      injection h with h'
      subst h'
      exact List.nil_sublist _
    | cons first rest =>
      simp only [filter_rows_by_column] at h
      by_cases hcol : col ∈ hdr first
      · rw [if_pos (by simpa using hcol)] at h
        injection h with h'
        rw [← h']
        exact List.filter_sublist _
      · rw [if_neg (by simpa using hcol)] at h
        exact Except.noConfusion h
  · intro rows v m u h
    cases rows with
    | nil =>
      injection h with h'
      injection h' with h1 h2
      rw [← h1, ← h2]
      exact ⟨List.nil_sublist _, List.nil_sublist _, by rfl⟩
    | cons first rest =>
      simp only [filter_rows_by_column_value] at h
      by_cases hcol : "Attribute 2 value(s)" ∈ hdr first
      · rw [if_pos (by simpa using hcol)] at h
        injection h with h'
        injection h' with h1 h2
        rw [← h1, ← h2]
        exact ⟨List.filter_sublist _, List.filter_sublist _,
          List.filter_append_perm _ _⟩
      · rw [if_neg (by simpa using hcol)] at h
        exact Except.noConfusion h
  · intro rows col pfx cs tr out h
    cases rows with
    | nil =>
      injection h with h'
      subst h'
      exact List.nil_sublist _
    | cons first rest =>
      simp only [ filter_rows_by_column_prefix] at h
      by_cases hcol : col ∈ hdr first
      · rw [if_pos (by simpa using hcol)] at h
        injection h with h'
        rw [← h']
        exact List.filter_sublist _
      · rw [if_neg (by simpa using hcol)] at h
        exact Except.noConfusion h
  · intro rows col out h
    cases rows with
    | nil =>
      injection h with h'
      subst h'
      exact List.nil_sublist _
    | cons first rest =>
      simp only [filter_rows_name_matches_cuba] at h
      by_cases hcol : col ∈ hdr first
      · rw [if_pos (by simpa using hcol)] at h
        injection h with h'
        rw [← h']
        exact List.filter_sublist _
      · rw [if_neg (by simpa using hcol)] at h
        exact Except.noConfusion h

/-- Witness for C10: each of the four filters applied to a concrete
dataset. -/
theorem filters_return_subsequence_witness :
    ([[("a","1")]] : List Record).Sublist [[("a","1")], [("a","2")]] ∧
    (([[("Attribute 2 value(s)","77")]] : List Record).Sublist
        [[("Attribute 2 value(s)","77")], [("Attribute 2 value(s)","5")]] ∧
      ([[("Attribute 2 value(s)","5")]] : List Record).Sublist
        [[("Attribute 2 value(s)","77")], [("Attribute 2 value(s)","5")]] ∧
      (([[("Attribute 2 value(s)","77")]] ++ [[("Attribute 2 value(s)","5")]] :
          List Record)).Perm
        [[("Attribute 2 value(s)","77")], [("Attribute 2 value(s)","5")]]) ∧
    ([[("n","abc")]] : List Record).Sublist [[("n","abc")], [("n","xyz")]] ∧
    ([[("Name","Cuba")]] : List Record).Sublist
      [[("Name","Cuba")], [("Name","Aruba")]] :=
  ⟨filters_return_subsequence.1 [[("a","1")], [("a","2")]] "a" "1"
      [[("a","1")]] rfl,
   filters_return_subsequence.2.1
      [[("Attribute 2 value(s)","77")], [("Attribute 2 value(s)","5")]] "77"
      [[("Attribute 2 value(s)","77")]] [[("Attribute 2 value(s)","5")]] rfl,
   filters_return_subsequence.2.2.1 [[("n","abc")], [("n","xyz")]] "n" "ab"
      true true [[("n","abc")]] rfl,
   filters_return_subsequence.2.2.2 [[("Name","Cuba")], [("Name","Aruba")]]
      "Name" [[("Name","Cuba")]] rfl⟩

/-- Every record stored in the built index is stored under its own
composite key. -/
theorem rowKey_getD_lookup {rows : List Record} {K : List String} {k : Key}
    (h : k ∈ (buildLoop rows K).map Prod.fst) :
    rowKey ((lookupIdx (buildLoop rows K) k).getD []) K = k := by
  obtain ⟨r, hr⟩ := lookupIdx_isSome_of_mem h
  obtain ⟨r', hr', he⟩ := mem_buildLoop (mem_of_lookupIdx hr)
  injection he with h1 h2
  rw [hr, h2, h1]
  rfl

/-- Rows reported for pairwise key-ordered member keys are pairwise ordered
by their own composite keys. -/
theorem onlyRows_pairwise (rows : List Record) (K : List String)
    (ks : List Key) (hks : ∀ k ∈ ks, k ∈ (buildLoop rows K).map Prod.fst)
    (hsort : ks.Pairwise keyLe) :
    (onlyRows (buildLoop rows K) ks).Pairwise
      (fun r1 r2 => keyLe (rowKey r1 K) (rowKey r2 K)) := by
  rw [onlyRows, List.pairwise_map]
  refine hsort.imp_of_mem ?_
  intro a b ha hb hab
  rw [rowKey_getD_lookup (hks a ha), rowKey_getD_lookup (hks b hb)]
  exact hab

theorem mem_onlyKeys {idxA idxB : Index} {k : Key}
    (h : k ∈ onlyKeys idxA idxB) : k ∈ idxA.map Prod.fst := by
  rw [onlyKeys, mem_sortKeys] at h
  exact (List.mem_filter.mp h).1

theorem onlyKeys_sorted (idxA idxB : Index) :
    (onlyKeys idxA idxB).Pairwise keyLe :=
  sortKeys_sorted _

theorem sharedKeys_sorted (idx1 idx2 : Index) :
    (sharedKeys idx1 idx2).Pairwise keyLe :=
  sortKeys_sorted _

theorem sharedKeys_nodup (rows1 : List Record) (K : List String)
    (idx2 : Index) : (sharedKeys (buildLoop rows1 K) idx2).Nodup := by
  rw [sharedKeys]
  exact sortKeys_nodup (List.Nodup.filter _ (buildLoop_keys_nodup rows1 K))

/-- Every difference record produced for a shared key carries that key. -/
theorem diffsForKey_key {k : Key} {r1 r2 : Record} {C : List String}
    {d : DiffRow} (h : d ∈ diffsForKey k r1 r2 C) : d.key = k := by
  rw [diffsForKey] at h
  obtain ⟨c, hc, he⟩ := List.mem_filterMap.mp h
  by_cases hne : rgetD r1 c "" ≠ rgetD r2 c ""
  · simp only [if_pos hne] at he
    cases he
    rfl
  · simp only [if_neg hne] at he
    exact Option.noConfusion he

/-- Difference records grouped by pairwise-ordered keys are pairwise ordered
by key. -/
theorem pairwise_key_flatMap {ks : List Key} {g : Key → List DiffRow}
    (hg : ∀ k, ∀ d ∈ g k, d.key = k) (hs : ks.Pairwise keyLe) :
    (ks.flatMap g).Pairwise (fun d1 d2 => keyLe d1.key d2.key) := by
  induction ks with
  | nil => simp
  | cons k ks ih =>
    rw [List.flatMap_cons, List.pairwise_append]
    refine ⟨?_, ih hs.of_cons, ?_⟩
    · apply List.pairwise_of_forall_mem_list
      intro d1 h1 d2 h2
      rw [hg k d1 h1, hg k d2 h2]
      exact keyLeB_refl k
    · intro d1 h1 d2 h2
      obtain ⟨k', hk', hd2⟩ := List.mem_flatMap.mp h2
      rw [hg k d1 h1, hg k' d2 hd2]
      exact (List.pairwise_cons.mp hs).1 k' hk'

/-- Filtering key-tagged groups over distinct keys selects exactly the
group of the requested key. -/
theorem filter_key_flatMap {ks : List Key} {g : Key → List DiffRow}
    (hg : ∀ k, ∀ d ∈ g k, d.key = k) (hnd : ks.Nodup) (k : Key) :
    (ks.flatMap g).filter (fun d => decide (d.key = k))
      = if k ∈ ks then g k else [] := by
  induction ks with
  | nil => simp
  | cons k0 ks ih =>
    rw [List.flatMap_cons, List.filter_append]
    obtain ⟨hk0, hnd'⟩ := List.nodup_cons.mp hnd
    by_cases hk : k0 = k
    · subst hk
      have h1 : (g k0).filter (fun d => decide (d.key = k0)) = g k0 := by
        rw [List.filter_eq_self]
        intro d hd
        simp [hg k0 d hd]
      have h2 : (ks.flatMap g).filter (fun d => decide (d.key = k0)) = [] := by
        rw [ih hnd', if_neg hk0]
      rw [h1, h2, if_pos (List.mem_cons_self k0 ks)]
      simp
    · have h1 : (g k0).filter (fun d => decide (d.key = k)) = [] := by
        rw [List.filter_eq_nil_iff]
        intro d hd
        simp [hg k0 d hd, hk]
      rw [h1, ih hnd']
      by_cases hmem : k ∈ ks
      · rw [if_pos hmem, if_pos (List.mem_cons_of_mem k0 hmem)]
        simp
      · have hnotmem : k ∉ k0 :: ks := by
          intro hcon
          rcases List.mem_cons.mp hcon with h | h
          · exact hk h.symm
          · exact hmem h
        rw [if_neg hmem, if_neg hnotmem]
        simp

/-- The columns emitted for one shared key follow the compare-column
order. -/
theorem diffsForKey_columns_sublist (k : Key) (r1 r2 : Record)
    (C : List String) :
    ((diffsForKey k r1 r2 C).map DiffRow.column).Sublist C := by
  induction C with
  | nil => simp [diffsForKey]
  | cons c C ih =>
    by_cases hne : rgetD r1 c "" ≠ rgetD r2 c ""
    · have h : diffsForKey k r1 r2 (c :: C)
          = ⟨k, c, rgetD r1 c "", rgetD r2 c ""⟩ :: diffsForKey k r1 r2 C := by
        simp only [diffsForKey, List.filterMap_cons, if_pos hne]
      rw [h, List.map_cons]
      exact List.Sublist.cons₂ c ih
    · have h : diffsForKey k r1 r2 (c :: C) = diffsForKey k r1 r2 C := by
        simp only [diffsForKey, List.filterMap_cons, if_neg hne]
      rw [h]
      exact List.Sublist.cons c ih

/-- C6: in a completed comparison the onlyA and onlyB reports are in
ascending sorted composite-key order, the difference records are sorted by
composite key, and within one key the emitted columns follow the given
compare-column order (for every key, the columns of that key's difference
records form a subsequence of the compare-column list). -/
theorem reconcile_output_ordering (rows1 rows2 : List Record)
    (K C : List String) (dp p1 p2 : Option String)
    (oA oB : List Record) (ds : List DiffRow) (ws : List FileWrite)
    (h : compare_csv_by_keys rows1 rows2 K C dp p1 p2
        = .ok (.done oA oB ds ws)) :
    oA.Pairwise (fun r1 r2 => keyLe (rowKey r1 K) (rowKey r2 K)) ∧
    oB.Pairwise (fun r1 r2 => keyLe (rowKey r1 K) (rowKey r2 K)) ∧
    ds.Pairwise (fun d1 d2 => keyLe d1.key d2.key) ∧
    ∀ k : Key, ((ds.filter (fun d => decide (d.key = k))).map
        DiffRow.column).Sublist C := by
  have hc := compare_done_inv h
  simp only [compareCore] at hc
  injection hc with h1 h2 h3 h4
  subst h1
  subst h2
  subst h3
  subst h4
  refine ⟨?_, ?_, ?_, ?_⟩
  · exact onlyRows_pairwise rows1 K _ (fun k hk => mem_onlyKeys hk)
      (onlyKeys_sorted _ _)
  · exact onlyRows_pairwise rows2 K _ (fun k hk => mem_onlyKeys hk)
      (onlyKeys_sorted _ _)
  · rw [allDiffs]
    exact pairwise_key_flatMap (fun k d hd => diffsForKey_key hd)
      (sharedKeys_sorted _ _)
  · intro k
    rw [allDiffs, filter_key_flatMap (fun k d hd => diffsForKey_key hd)
      (sharedKeys_nodup rows1 K _) k]
    by_cases hmem : k ∈ sharedKeys (buildLoop rows1 K) (buildLoop rows2 K)
    · rw [if_pos hmem]
      exact diffsForKey_columns_sublist k _ _ C
    · rw [if_neg hmem]
      simp

/-- Witness for C6: the ordering facts instantiated on the concrete
scenario of C1, taking the per-key column subsequence at key `("2",)`. -/
theorem reconcile_output_ordering_witness :
    ([[("id","1"),("price","10")]] : List Record).Pairwise
      (fun r1 r2 => keyLe (rowKey r1 ["id"]) (rowKey r2 ["id"])) ∧
    ([[("id","3"),("price","30")]] : List Record).Pairwise
      (fun r1 r2 => keyLe (rowKey r1 ["id"]) (rowKey r2 ["id"])) ∧
    ([⟨["2"], "price", "20", "25"⟩] : List DiffRow).Pairwise
      (fun d1 d2 => keyLe d1.key d2.key) ∧
    ((([⟨["2"], "price", "20", "25"⟩] : List DiffRow).filter
        (fun d => decide (d.key = ["2"]))).map DiffRow.column).Sublist
      ["price"] := by
  have h := reconcile_output_ordering
    [[("id","1"),("price","10")], [("id","2"),("price","20")]]
    [[("id","2"),("price","25")], [("id","3"),("price","30")]]
    ["id"] ["price"] (some "differences.csv") (some "only_in_file1.csv")
    (some "only_in_file2.csv")
    [[("id","1"),("price","10")]] [[("id","3"),("price","30")]]
    [⟨["2"], "price", "20", "25"⟩]
    [.only1 "only_in_file1.csv" [[("id","1"),("price","10")]],
     .only2 "only_in_file2.csv" [[("id","3"),("price","30")]],
     .diff "differences.csv" [⟨["2"], "price", "20", "25"⟩]] rfl
  exact ⟨h.1, h.2.1, h.2.2.1, h.2.2.2 ["2"]⟩

end CSVScript
